import Mathlib

/-!
Shallow embedding of the o1js provable-gadget core:
* `src/lib/gadgets/range-check.ts` — `rangeCheck64`, `multiRangeCheck`,
  `compactMultiRangeCheck` with their constant fast paths and the gate-based
  decomposition helpers `rangeCheck0Helper` / `rangeCheck1Helper`;
* `src/lib/provable/merkle-tree-indexed.ts` — the `IndexedMerkleMap` node
  cache (`getNode`, `setLeafNode`), the memoized empty-subtree table
  (`empty`) and the low-node binary search `bisectUnique`.

Field values are modelled as a tagged variant (constant value / variable
handle); bigint arithmetic is modelled on `Nat`; JavaScript sparse arrays
are modelled as lists of `Option`; thrown `Error`s become `Except.error`.
The Poseidon hash (repository bindings, outside the embedded sources) is an
abstract parameter `hash : Int → Int → Int`; every theorem about the tree
holds for an arbitrary hash function.
-/

namespace O1js

/-- A field value: either a compile-time constant carrying its integer value,
or a symbolic variable handle bound to a witness later. Gadgets branch on
this tag exactly as the source branches on `x.isConstant()`. -/
inductive FieldElem where
  | constant (value : Nat)
  | var (idx : Nat)
deriving DecidableEq, Repr

/-- `x.isConstant()` of the external `Field` type. -/
def FieldElem.isConstant : FieldElem → Bool
  | .constant _ => true
  | .var _ => false

/-- `x.toBigInt()` of the external `Field` type; only invoked on constants in
the embedded code paths, so a variable handle maps to a junk value 0. -/
def FieldElem.toBigInt : FieldElem → Nat
  | .constant v => v
  | .var _ => 0

/-- Modelled from the spec: `bitSlice(x, start, length)` returns the
`length`-bit unsigned integer at bit offset `start` of `x`; bits beyond the
significant range of `x` read as 0. (The implementation lives in
`gadgets/common.js`, which is not among the embedded sources.) -/
def bitSlice (x start length : Nat) : Nat :=
  (x >>> start) % 2 ^ length

/-- A custom-gate constraint row. Modelled from the spec: the gates
`rangeCheck0` / `rangeCheck1` are opaque fixed-shape constraint emitters of
the proof system (outside the embedded sources), so a gate is recorded by
its kind and principal operands. -/
inductive Gate where
  | rangeCheck0 (x : FieldElem) (isCompact : Bool)
  | rangeCheck1 (z yz x64 x76 y64 y76 : FieldElem)
deriving DecidableEq, Repr

/-- The circuit-construction state: a counter for fresh witness variables and
the list of emitted gates, appended in program order. -/
structure CircuitState where
  nextVar : Nat
  gates : List Gate
deriving DecidableEq, Repr

/-- Modelled from the spec: `exists(n, compute)` requests `n` fresh,
initially unconstrained circuit variables; `compute` runs only during
witness generation, so the shape phase modelled here just mints handles. -/
def existsVars (n : Nat) (st : CircuitState) : List FieldElem × CircuitState :=
  ((List.range n).map (fun i => FieldElem.var (st.nextVar + i)),
   { st with nextVar := st.nextVar + n })

/-- Append one gate to the constraint system. -/
def emitGate (g : Gate) (st : CircuitState) : CircuitState :=
  { st with gates := st.gates ++ [g] }

/-- `rangeCheck64(x)`: constant path checks `x < 2^64` and returns the four
12-bit limbs at offsets 52, 40, 28, 16; variable path introduces 8 crumbs
and 4 limbs and emits one `rangeCheck0` gate. -/
def rangeCheck64 (x : FieldElem) (st : CircuitState) :
    Except String ((FieldElem × FieldElem × FieldElem × FieldElem) × CircuitState) :=
  if x.isConstant then
    let xx := x.toBigInt
    if 1 <<< 64 ≤ xx then
      .error ("rangeCheck64: expected field to fit in 64 bits, got " ++ toString xx)
    else
      .ok ((.constant (bitSlice xx 52 12), .constant (bitSlice xx 40 12),
            .constant (bitSlice xx 28 12), .constant (bitSlice xx 16 12)), st)
  else
    let (_crumbs, st) := existsVars 8 st
    let (limbs, st) := existsVars 4 st
    let x16 := limbs.getD 0 (.constant 0)
    let x28 := limbs.getD 1 (.constant 0)
    let x40 := limbs.getD 2 (.constant 0)
    let x52 := limbs.getD 3 (.constant 0)
    let st := emitGate (.rangeCheck0 x false) st
    .ok ((x52, x40, x28, x16), st)

/-- The default bigint limb size `L = 88`. -/
def L : Nat := 88

/-- `2 * L = 176`. -/
def twoL : Nat := 2 * L

/-- The mask `2^88 - 1` for the low compact limb. -/
def lMask : Nat := (1 <<< L) - 1

/-- `splitCompactLimb(x01) = [x01 & lMask, x01 >> L]`. -/
def splitCompactLimb (x01 : Nat) : Nat × Nat :=
  (x01 &&& lMask, x01 >>> L)

/-- `rangeCheck0Helper(x, isCompact)`: introduces 8 crumb witnesses and 6
12-bit limb witnesses, emits one `rangeCheck0` gate, and returns the two
highest limbs `(x64, x76)` whose lookups are deferred to `rangeCheck1Helper`. -/
def rangeCheck0Helper (x : FieldElem) (isCompact : Bool) (st : CircuitState) :
    (FieldElem × FieldElem) × CircuitState :=
  let (_crumbs, st) := existsVars 8 st
  let (limbs, st) := existsVars 6 st
  let x64 := limbs.getD 4 (.constant 0)
  let x76 := limbs.getD 5 (.constant 0)
  let st := emitGate (.rangeCheck0 x isCompact) st
  ((x64, x76), st)

/-- `rangeCheck1Helper`: introduces 13 current-row limb witnesses and 11
next-row crumb witnesses for `z` and emits one `rangeCheck1` gate binding
`z`, `yz` and the four deferred high limbs. -/
def rangeCheck1Helper (x64 x76 y64 y76 z yz : FieldElem) (st : CircuitState) :
    CircuitState :=
  let (_row, st) := existsVars 13 st
  let (_next, st) := existsVars 11 st
  emitGate (.rangeCheck1 z yz x64 x76 y64 y76) st

/-- `multiRangeCheck([x, y, z])`: all-constant path is a direct mask check of
the three values; otherwise `x` and `y` go through `rangeCheck0Helper` and
the check is completed by `rangeCheck1Helper` with `z` and `yz = 0`. -/
def multiRangeCheck (x y z : FieldElem) (st : CircuitState) :
    Except String (Unit × CircuitState) :=
  if x.isConstant && y.isConstant && z.isConstant then
    if x.toBigInt >>> L ≠ 0 ∨ y.toBigInt >>> L ≠ 0 ∨ z.toBigInt >>> L ≠ 0 then
      .error ("Expected fields to fit in " ++ toString L ++ " bits, got " ++
        toString x.toBigInt ++ ", " ++ toString y.toBigInt ++ ", " ++ toString z.toBigInt)
    else
      .ok ((), st)
  else
    let ((x64, x76), st) := rangeCheck0Helper x false st
    let ((y64, y76), st) := rangeCheck0Helper y false st
    let st := rangeCheck1Helper x64 x76 y64 y76 z (.constant 0) st
    .ok ((), st)

/-- `compactMultiRangeCheck(xy, z)`: constant path bound-checks `xy < 2^176`,
`z < 2^88` and splits `xy` into `(x, y)`; variable path witnesses the split,
decomposes `z` (non-compact) and `x` (compact) and completes with
`rangeCheck1Helper`, binding `yz = xy`. Returns `(x, y, z)`. -/
def compactMultiRangeCheck (xy z : FieldElem) (st : CircuitState) :
    Except String ((FieldElem × FieldElem × FieldElem) × CircuitState) :=
  if xy.isConstant && z.isConstant then
    if xy.toBigInt >>> twoL ≠ 0 ∨ z.toBigInt >>> L ≠ 0 then
      .error ("Expected fields to fit in " ++ toString twoL ++ " and " ++ toString L ++
        " bits respectively, got " ++ toString xy.toBigInt ++ ", " ++ toString z.toBigInt)
    else
      let p := splitCompactLimb xy.toBigInt
      .ok ((.constant p.1, .constant p.2, z), st)
  else
    let (xs, st) := existsVars 2 st
    let x := xs.getD 0 (.constant 0)
    let y := xs.getD 1 (.constant 0)
    let ((z64, z76), st) := rangeCheck0Helper z false st
    let ((x64, x76), st) := rangeCheck0Helper x true st
    let st := rangeCheck1Helper z64 z76 x64 x76 y xy st
    .ok ((x, y, z), st)

/-! ## Indexed Merkle map: empty-node cache -/

/-- Iterated squaring of the hash: `iterHash hash x n` applies
`y ↦ hash y y` to `x` exactly `n` times. `iterHash hash 0 n` is the
canonical empty-subtree hash at level `n`. -/
def iterHash (hash : Int → Int → Int) (x : Int) : Nat → Int
  | 0 => x
  | n + 1 => hash (iterHash hash x n) (iterHash hash x n)

/-- The value the memoized `emptyNodes` cache `c` will hold at position `l`
once grown that far: the stored entry below `c.length`, and iterated hashing
of the last stored entry above it. -/
def emptyFrom (hash : Int → Int → Int) (c : List Int) (l : Nat) : Int :=
  if l < c.length then c.getD l 0
  else iterHash hash (c.getLastD 0) (l + 1 - c.length)

/-- One `for`-loop step of `empty(level)` repeated `n` times: append
`hash(zero, zero)` of the last entry. (The source reads `emptyNodes[i - 1]`,
which is the last entry since the cache starts as `[0n]` and is only ever
appended to.) -/
def growEmptyNodesAux (hash : Int → Int → Int) : Nat → List Int → List Int
  | 0, c => c
  | n + 1, c => growEmptyNodesAux hash n (c ++ [hash (c.getLastD 0) (c.getLastD 0)])

/-- The `for` loop of `empty(level)`: runs `i` from the current cache length
up to `level`, i.e. `level + 1 - length` append steps. -/
def growEmptyNodes (hash : Int → Int → Int) (c : List Int) (level : Nat) : List Int :=
  growEmptyNodesAux hash (level + 1 - c.length) c

/-- `empty(level)`: grow the memoized `emptyNodes` cache up to `level` and
return the entry there, together with the updated cache (the source mutates
the module-level `emptyNodes` array in place). -/
def empty (hash : Int → Int → Int) (c : List Int) (level : Nat) : Int × List Int :=
  let c := growEmptyNodes hash c level
  (c.getD level 0, c)

/-- The initial contents `[0n]` of the module-level `emptyNodes` cache. -/
def emptyNodes0 : List Int := [0]

/-! ## Indexed Merkle map: data model and node cache -/

/-- A leaf `(key, value, nextKey, nextIndex)`: a node of the sorted linked
list over keys embedded in the tree leaves. -/
structure Leaf where
  key : Int
  value : Int
  nextKey : Int
  nextIndex : Int
deriving DecidableEq, Repr

/-- The per-level node-hash arrays: `nodes[level][index]` is `some hash` for
a cached node and `none` for a hole (JavaScript `undefined`). -/
abbrev Nodes := List (List (Option Int))

/-- `nodes[level]?.[index]` — the cached entry, `none` when the level row or
the slot is absent. -/
def entryAt (nodes : Nodes) (level index : Nat) : Option Int :=
  (nodes.getD level []).getD index none

/-- JavaScript array assignment `row[index] = v`: pads with holes up to
`index` when the row is shorter, then stores `some v`. -/
def listSetPad : List (Option Int) → Nat → Int → List (Option Int)
  | [], 0, v => [some v]
  | [], n + 1, v => none :: listSetPad [] n v
  | _ :: xs, 0, v => some v :: xs
  | x :: xs, n + 1, v => x :: listSetPad xs n v

/-- `nodes[level][index] = v`. The constructor creates a row for every
`level < height`, so the out-of-bounds level case is unreachable in the
embedded code and is modelled as a no-op. -/
def nodesSet (nodes : Nodes) (level index : Nat) (v : Int) : Nodes :=
  match nodes, level with
  | [], _ => []
  | row :: rest, 0 => listSetPad row index v :: rest
  | row :: rest, l + 1 => row :: nodesSet rest l index v

/-- The provable state of an `IndexedMerkleMap` plus its unconstrained data:
root, leaves-array length, fixed height, and the raw leaves / node cache /
low-node list. -/
structure IndexedMerkleMap where
  root : Int
  length : Int
  height : Nat
  leaves : List Leaf
  nodes : Nodes
  lowNodes : List Leaf
deriving DecidableEq, Repr

/-- The `IndexedMerkleMap` constructor: root is the canonical empty hash for
level `height - 1` (growing the shared `emptyNodes` cache `c` as needed),
one empty node row per level, length 0, no leaves. -/
def IndexedMerkleMap.create (hash : Int → Int → Int) (c : List Int) (height : Nat) :
    IndexedMerkleMap × List Int :=
  let r := empty hash c (height - 1)
  ({ root := r.1, length := 0, height := height, leaves := [],
     nodes := List.replicate height [], lowNodes := [] }, r.2)

/-- `getNode(level, index, nonEmpty)`: the cached hash when present; when
absent, a thrown invariant-violation error if `nonEmpty`, else the canonical
empty-subtree hash `empty(level)` (threading the shared cache `c`). -/
def getNode (hash : Int → Int → Int) (nodes : Nodes) (c : List Int)
    (level index : Nat) (nonEmpty : Bool) : Except String (Int × List Int) :=
  match entryAt nodes level index with
  | some node => .ok (node, c)
  | none =>
    if nonEmpty then
      .error ("node at level=" ++ toString level ++ ", index=" ++ toString index ++
        " was expected to be known, but is not.")
    else
      .ok (empty hash c level)

/-- The value `getNode` yields without threading the shared cache: the
cached entry when present, else the empty-subtree value the cache `c` will
produce for `level`. -/
def nodeValue (hash : Int → Int → Int) (nodes : Nodes) (c : List Int)
    (level index : Nat) : Int :=
  match entryAt nodes level index with
  | some v => v
  | none => emptyFrom hash c level

/-- The ancestor-recomputation loop of `setLeafNode`, from `level` up to
`height - 1` (`fuel` counts the remaining iterations, `height - level` at
entry): halve the index, fetch both children via `getNode` (with `nonEmpty`
on the side of the path just written), store their hash, and continue with
whether the new index is a left child. -/
def setLeafLoop (hash : Int → Int → Int) (height : Nat) :
    Nat → Nat → Nodes → List Int → Nat → Bool → Except String (Nodes × List Int)
  | 0, _level, nodes, c, _index, _isLeft => .ok (nodes, c)
  | fuel + 1, level, nodes, c, index, isLeft =>
    if level < height then
      let index2 := index / 2
      match getNode hash nodes c (level - 1) (index2 * 2) isLeft with
      | .error e => .error e
      | .ok (left, c1) =>
        match getNode hash nodes c1 (level - 1) (index2 * 2 + 1) (!isLeft) with
        | .error e => .error e
        | .ok (right, c2) =>
          setLeafLoop hash height fuel (level + 1)
            (nodesSet nodes level index2 (hash left right)) c2 index2
            (decide (index2 % 2 = 0))
    else .ok (nodes, c)

/-- `setLeafNode(index, leaf)`: write the level-0 hash at `index`, then
recompute every ancestor entry bottom-up via `setLeafLoop` (the loop runs
levels `1` to `height - 1`, i.e. `height - 1` iterations). Only the node
cache changes; `root`, `length` and `height` are untouched. -/
def setLeafNode (hash : Int → Int → Int) (m : IndexedMerkleMap) (c : List Int)
    (index : Nat) (leaf : Int) : Except String (IndexedMerkleMap × List Int) :=
  let nodes := nodesSet m.nodes 0 index leaf
  match setLeafLoop hash m.height (m.height - 1) 1 nodes c index (decide (index % 2 = 0)) with
  | .error e => .error e
  | .ok (nodes, c) => .ok ({ m with nodes := nodes }, c)

/-! ## Low-node binary search -/

/-- The `while (true)` loop of `bisectUnique`: on `iHigh = iLow` return
`(iLow, getValue(iLow) == target)`; otherwise bisect at the ceiling midpoint
`⌈(iLow + iHigh) / 2⌉` and keep the half that can contain the low index.
(All reachable states satisfy `iLow ≤ iHigh`, so the source guard
`iHigh === iLow` is taken as `¬ iLow < iHigh`.) -/
def bisectLoop (target : Int) (getValue : Nat → Int) (iLow iHigh : Nat) : Nat × Bool :=
  if _h : iLow < iHigh then
    let iMid := (iLow + iHigh + 1) / 2
    if getValue iMid ≤ target then bisectLoop target getValue iMid iHigh
    else bisectLoop target getValue iLow (iMid - 1)
  else (iLow, decide (getValue iLow = target))
termination_by iHigh - iLow
decreasing_by
  · omega
  · omega

/-- The number of bisection iterations `bisectLoop` performs before its
interval collapses. -/
def bisectSteps (target : Int) (getValue : Nat → Int) (iLow iHigh : Nat) : Nat :=
  if _h : iLow < iHigh then
    let iMid := (iLow + iHigh + 1) / 2
    if getValue iMid ≤ target then bisectSteps target getValue iMid iHigh + 1
    else bisectSteps target getValue iLow (iMid - 1) + 1
  else 0
termination_by iHigh - iLow
decreasing_by
  · omega
  · omega

/-- `bisectUnique(target, getValue, length)`: returns
`lowIndex = max { i | getValue(i) ≤ target }` (`-1` when no such index) and
whether `getValue(lowIndex) == target`, by the edge checks at indices `0`
and `length - 1` followed by the bisection loop. -/
def bisectUnique (target : Int) (getValue : Nat → Int) (length : Nat) : Int × Bool :=
  let iLow := 0
  let iHigh := length - 1
  if getValue iLow > target then (-1, false)
  else if getValue iHigh < target then ((iHigh : Int), false)
  else
    let r := bisectLoop target getValue iLow iHigh
    ((r.1 : Int), r.2)

/-! ## Theorems: range-check gadgets -/

theorem shiftRight_ne_zero_iff (a k : Nat) : a >>> k ≠ 0 ↔ 2 ^ k ≤ a := by
  rw [Nat.shiftRight_eq_div_pow]
  rw [Nat.div_ne_zero_iff (by positivity)]

/-- C3: for a constant field `x`, `rangeCheck64` returns the four 12-bit
limbs `(bitSlice(x,52,12), bitSlice(x,40,12), bitSlice(x,28,12),
bitSlice(x,16,12))` when `x < 2^64`, and fails with a range-violation error
reporting `x` when `x ≥ 2^64`. -/
theorem rangeCheck64_constant_spec (x : Nat) (st : CircuitState) :
    (x < 2 ^ 64 →
      rangeCheck64 (.constant x) st =
        .ok ((.constant (bitSlice x 52 12), .constant (bitSlice x 40 12),
              .constant (bitSlice x 28 12), .constant (bitSlice x 16 12)), st)) ∧
    (2 ^ 64 ≤ x →
      rangeCheck64 (.constant x) st =
        .error ("rangeCheck64: expected field to fit in 64 bits, got " ++ toString x)) := by
  constructor
  · intro hx
    have hcond : ¬ (1 <<< 64 ≤ (FieldElem.constant x).toBigInt) := by
      simp only [FieldElem.toBigInt]; omega
    unfold rangeCheck64
    rw [if_pos (show (FieldElem.constant x).isConstant = true from rfl), if_neg hcond]
    rfl
  · intro hx
    have hcond : 1 <<< 64 ≤ (FieldElem.constant x).toBigInt := by
      simp only [FieldElem.toBigInt]; omega
    unfold rangeCheck64
    rw [if_pos (show (FieldElem.constant x).isConstant = true from rfl), if_pos hcond]
    rfl

/-- Witness for C3: both branches at concrete inputs. -/
theorem rangeCheck64_constant_spec_witness :
    rangeCheck64 (.constant 5) ⟨0, []⟩ =
      .ok ((.constant 0, .constant 0, .constant 0, .constant 0), ⟨0, []⟩) ∧
    rangeCheck64 (.constant (2 ^ 64)) ⟨0, []⟩ =
      .error ("rangeCheck64: expected field to fit in 64 bits, got " ++
        toString (2 ^ 64 : Nat)) := by
  constructor
  · have h := (rangeCheck64_constant_spec 5 ⟨0, []⟩).1 (by norm_num)
    rw [h]; rfl
  · exact (rangeCheck64_constant_spec (2 ^ 64) ⟨0, []⟩).2 (by norm_num)

/-- C8: for constant fields `x, y, z`, `multiRangeCheck` succeeds without
emitting anything when all three values are below `2^88`, and fails with an
error reporting all three values when any is `≥ 2^88`. -/
theorem multiRangeCheck_constant_spec (x y z : Nat) (st : CircuitState) :
    (x < 2 ^ 88 → y < 2 ^ 88 → z < 2 ^ 88 →
      multiRangeCheck (.constant x) (.constant y) (.constant z) st = .ok ((), st)) ∧
    (2 ^ 88 ≤ x ∨ 2 ^ 88 ≤ y ∨ 2 ^ 88 ≤ z →
      multiRangeCheck (.constant x) (.constant y) (.constant z) st =
        .error ("Expected fields to fit in 88 bits, got " ++ toString x ++ ", " ++
          toString y ++ ", " ++ toString z)) := by
  constructor
  · intro h1 h2 h3
    have hx0 : x >>> 88 = 0 := by
      rw [Nat.shiftRight_eq_div_pow]; exact Nat.div_eq_of_lt h1
    have hy0 : y >>> 88 = 0 := by
      rw [Nat.shiftRight_eq_div_pow]; exact Nat.div_eq_of_lt h2
    have hz0 : z >>> 88 = 0 := by
      rw [Nat.shiftRight_eq_div_pow]; exact Nat.div_eq_of_lt h3
    have hcond : ¬ ((FieldElem.constant x).toBigInt >>> L ≠ 0 ∨
        (FieldElem.constant y).toBigInt >>> L ≠ 0 ∨
        (FieldElem.constant z).toBigInt >>> L ≠ 0) := by
      simp [FieldElem.toBigInt, L, hx0, hy0, hz0]
    unfold multiRangeCheck
    rw [if_pos (show ((FieldElem.constant x).isConstant && (FieldElem.constant y).isConstant
      && (FieldElem.constant z).isConstant) = true from rfl), if_neg hcond]
  · intro h1
    have hcond : (FieldElem.constant x).toBigInt >>> L ≠ 0 ∨
        (FieldElem.constant y).toBigInt >>> L ≠ 0 ∨
        (FieldElem.constant z).toBigInt >>> L ≠ 0 := by
      simp only [FieldElem.toBigInt, L]
      rcases h1 with h | h | h
      · exact Or.inl ((shiftRight_ne_zero_iff x 88).mpr h)
      · exact Or.inr (Or.inl ((shiftRight_ne_zero_iff y 88).mpr h))
      · exact Or.inr (Or.inr ((shiftRight_ne_zero_iff z 88).mpr h))
    unfold multiRangeCheck
    rw [if_pos (show ((FieldElem.constant x).isConstant && (FieldElem.constant y).isConstant
      && (FieldElem.constant z).isConstant) = true from rfl), if_pos hcond]
    rfl

/-- Witness for C8: both branches at concrete inputs. -/
theorem multiRangeCheck_constant_spec_witness :
    multiRangeCheck (.constant 1) (.constant 2) (.constant 3) ⟨0, []⟩ = .ok ((), ⟨0, []⟩) ∧
    multiRangeCheck (.constant 1) (.constant (2 ^ 88)) (.constant 3) ⟨0, []⟩ =
      .error ("Expected fields to fit in 88 bits, got " ++ toString (1 : Nat) ++ ", " ++
        toString (2 ^ 88 : Nat) ++ ", " ++ toString (3 : Nat)) := by
  constructor
  · exact (multiRangeCheck_constant_spec 1 2 3 ⟨0, []⟩).1 (by norm_num) (by norm_num)
      (by norm_num)
  · exact (multiRangeCheck_constant_spec 1 (2 ^ 88) 3 ⟨0, []⟩).2 (Or.inr (Or.inl le_rfl))

/-- C4: for constant `x, y, z` each below `2^88`,
`compactMultiRangeCheck (x + y·2^88, z)` succeeds and returns exactly
`(x, y, z)`. -/
theorem compactMultiRangeCheck_roundtrip (x y z : Nat) (st : CircuitState)
    (hx : x < 2 ^ 88) (hy : y < 2 ^ 88) (hz : z < 2 ^ 88) :
    compactMultiRangeCheck (.constant (x + y * 2 ^ 88)) (.constant z) st =
      .ok ((.constant x, .constant y, .constant z), st) := by
  have hxy : x + y * 2 ^ 88 < 2 ^ 176 := by
    have h2 : (2 ^ 88 : Nat) * 2 ^ 88 = 2 ^ 176 := by norm_num
    nlinarith
  have h176 : (x + y * 2 ^ 88) >>> twoL = 0 := by
    have h2 : twoL = 176 := by norm_num [twoL, L]
    rw [h2, Nat.shiftRight_eq_div_pow]
    exact Nat.div_eq_of_lt hxy
  have h88 : z >>> L = 0 := by
    rw [L, Nat.shiftRight_eq_div_pow]
    exact Nat.div_eq_of_lt hz
  have h1 : ¬ ((FieldElem.constant (x + y * 2 ^ 88)).toBigInt >>> twoL ≠ 0 ∨
      (FieldElem.constant z).toBigInt >>> L ≠ 0) := by
    simp only [FieldElem.toBigInt, ne_eq, not_or, not_not]
    exact ⟨h176, h88⟩
  have hsplit : splitCompactLimb (x + y * 2 ^ 88) = (x, y) := by
    unfold splitCompactLimb lMask L
    have hm : (1 <<< 88 : Nat) - 1 = 2 ^ 88 - 1 := by simp [Nat.shiftLeft_eq]
    rw [hm, Nat.and_pow_two_sub_one_eq_mod, Nat.shiftRight_eq_div_pow]
    simp only [Prod.mk.injEq]
    constructor
    · rw [Nat.add_mul_mod_self_right, Nat.mod_eq_of_lt hx]
    · rw [Nat.add_mul_div_right _ _ (by positivity), Nat.div_eq_of_lt hx, Nat.zero_add]
  unfold compactMultiRangeCheck
  rw [if_pos (show ((FieldElem.constant (x + y * 2 ^ 88)).isConstant &&
    (FieldElem.constant z).isConstant) = true from rfl), if_neg h1]
  simp only [FieldElem.toBigInt, hsplit]

/-- Witness for C4 at a concrete input. -/
theorem compactMultiRangeCheck_roundtrip_witness :
    compactMultiRangeCheck (.constant (7 + 11 * 2 ^ 88)) (.constant 13) ⟨0, []⟩ =
      .ok ((.constant 7, .constant 11, .constant 13), ⟨0, []⟩) :=
  compactMultiRangeCheck_roundtrip 7 11 13 ⟨0, []⟩ (by norm_num) (by norm_num) (by norm_num)

theorem rangeCheck0Helper_eq (x : FieldElem) (b : Bool) (st : CircuitState) :
    rangeCheck0Helper x b st =
      ((.var (st.nextVar + 12), .var (st.nextVar + 13)),
       { nextVar := st.nextVar + 14, gates := st.gates ++ [.rangeCheck0 x b] }) := by
  simp only [rangeCheck0Helper, existsVars, emitGate]
  norm_num [List.range_succ]

theorem rangeCheck1Helper_eq (x64 x76 y64 y76 z yz : FieldElem) (st : CircuitState) :
    rangeCheck1Helper x64 x76 y64 y76 z yz st =
      { nextVar := st.nextVar + 24,
        gates := st.gates ++ [.rangeCheck1 z yz x64 x76 y64 y76] } := by
  simp only [rangeCheck1Helper, existsVars, emitGate]

/-- C10: `multiRangeCheck` takes the constant bound-check path only when all
three inputs are constants (that path emits nothing and either succeeds or
throws); as soon as one input is a variable, all three go through the
gate-based decomposition — two `rangeCheck0` gates for `x` and `y` and one
`rangeCheck1` gate for `z` — and construction succeeds with no synchronous
range error regardless of the values of any constant inputs. -/
theorem multiRangeCheck_dispatch (x y z : FieldElem) (st : CircuitState) :
    (x.isConstant = false ∨ y.isConstant = false ∨ z.isConstant = false →
      multiRangeCheck x y z st =
        .ok ((), { nextVar := st.nextVar + 52,
                   gates := st.gates ++
                     [.rangeCheck0 x false, .rangeCheck0 y false,
                      .rangeCheck1 z (.constant 0)
                        (.var (st.nextVar + 12)) (.var (st.nextVar + 13))
                        (.var (st.nextVar + 26)) (.var (st.nextVar + 27))] })) ∧
    (x.isConstant = true → y.isConstant = true → z.isConstant = true →
      multiRangeCheck x y z st = .ok ((), st) ∨
        ∃ e, multiRangeCheck x y z st = .error e) := by
  constructor
  · intro h
    have hcond : (x.isConstant && y.isConstant && z.isConstant) = false := by
      rcases h with h | h | h <;> simp [h]
    simp only [multiRangeCheck, hcond, Bool.false_eq_true, if_false]
    rw [rangeCheck0Helper_eq, rangeCheck0Helper_eq, rangeCheck1Helper_eq]
    have h52 : st.nextVar + 14 + 14 + 24 = st.nextVar + 52 := by omega
    simp [h52]
  · intro hx hy hz
    simp only [multiRangeCheck, hx, hy, hz, Bool.and_self, if_true]
    split
    · exact Or.inr ⟨_, rfl⟩
    · exact Or.inl rfl

/-- Witness for C10: one variable input forces the gate path and no error is
raised even though a constant input exceeds `2^88`. -/
theorem multiRangeCheck_dispatch_witness :
    multiRangeCheck (.var 0) (.constant (2 ^ 88)) (.constant 5) ⟨1, []⟩ =
      .ok ((), { nextVar := 53,
                 gates := [.rangeCheck0 (.var 0) false,
                           .rangeCheck0 (.constant (2 ^ 88)) false,
                           .rangeCheck1 (.constant 5) (.constant 0)
                             (.var 13) (.var 14) (.var 27) (.var 28)] }) := by
  have h := (multiRangeCheck_dispatch (.var 0) (.constant (2 ^ 88)) (.constant 5)
    ⟨1, []⟩).1 (Or.inl rfl)
  rw [h]
  rfl

/-! ## Theorems: low-node binary search -/

theorem bisectLoop_step_le (target : Int) (getValue : Nat → Int) (iLow iHigh : Nat)
    (h : iLow < iHigh) (hm : getValue ((iLow + iHigh + 1) / 2) ≤ target) :
    bisectLoop target getValue iLow iHigh =
      bisectLoop target getValue ((iLow + iHigh + 1) / 2) iHigh := by
  rw [bisectLoop]
  simp [h, hm]

theorem bisectLoop_step_gt (target : Int) (getValue : Nat → Int) (iLow iHigh : Nat)
    (h : iLow < iHigh) (hm : ¬ getValue ((iLow + iHigh + 1) / 2) ≤ target) :
    bisectLoop target getValue iLow iHigh =
      bisectLoop target getValue iLow ((iLow + iHigh + 1) / 2 - 1) := by
  rw [bisectLoop]
  simp [h, hm]

theorem bisectLoop_stop (target : Int) (getValue : Nat → Int) (iLow iHigh : Nat)
    (h : ¬ iLow < iHigh) :
    bisectLoop target getValue iLow iHigh = (iLow, decide (getValue iLow = target)) := by
  rw [bisectLoop]
  simp [h]

theorem bisectLoop_spec (target : Int) (getValue : Nat → Int) (n : Nat) :
    ∀ iLow iHigh, iLow ≤ iHigh → iHigh < n → getValue iLow ≤ target →
    (iHigh = n - 1 ∨ target < getValue (iHigh + 1)) →
    iLow ≤ (bisectLoop target getValue iLow iHigh).1 ∧
    (bisectLoop target getValue iLow iHigh).1 ≤ iHigh ∧
    getValue (bisectLoop target getValue iLow iHigh).1 ≤ target ∧
    ((bisectLoop target getValue iLow iHigh).1 = n - 1 ∨
      target < getValue ((bisectLoop target getValue iLow iHigh).1 + 1)) ∧
    (bisectLoop target getValue iLow iHigh).2 =
      decide (getValue (bisectLoop target getValue iLow iHigh).1 = target) := by
  intro iLow iHigh
  induction iLow, iHigh using bisectLoop.induct target getValue with
  | case1 iLow iHigh h iMid hle ih =>
    intro h1 h2 h3 h4
    have hmid : iMid = (iLow + iHigh + 1) / 2 := rfl
    rw [bisectLoop_step_le target getValue iLow iHigh h (hmid ▸ hle), ← hmid]
    obtain ⟨a1, a2, a3, a4, a5⟩ := ih (by omega) h2 hle h4
    exact ⟨by omega, a2, a3, a4, a5⟩
  | case2 iLow iHigh h iMid hgt ih =>
    intro h1 h2 h3 h4
    have hmid : iMid = (iLow + iHigh + 1) / 2 := rfl
    rw [bisectLoop_step_gt target getValue iLow iHigh h (hmid ▸ hgt), ← hmid]
    have hlt : iLow < iMid := by omega
    have hstep : iMid - 1 + 1 = iMid := by omega
    obtain ⟨a1, a2, a3, a4, a5⟩ :=
      ih (by omega) (by omega) h3 (Or.inr (by rw [hstep]; omega))
    exact ⟨a1, by omega, a3, a4, a5⟩
  | case3 iLow iHigh h =>
    intro h1 h2 h3 h4
    rw [bisectLoop_stop target getValue iLow iHigh h]
    have : iLow = iHigh := by omega
    subst this
    exact ⟨le_rfl, le_rfl, h3, h4, rfl⟩

theorem bisectUnique_eq (target : Int) (getValue : Nat → Int) (length : Nat) :
    bisectUnique target getValue length =
      if getValue 0 > target then (-1, false)
      else if getValue (length - 1) < target then (((length - 1 : Nat) : Int), false)
      else ((bisectLoop target getValue 0 (length - 1)).1,
            (bisectLoop target getValue 0 (length - 1)).2) := rfl

/-- C1: on a strictly increasing sequence `getValue` of length `n ≥ 1`,
`bisectUnique` returns `(-1, false)` when the target is below the first
element; `(n-1, false)` when the target is above the last element; otherwise
`(i, found)` with `getValue i ≤ target`, `i = n-1` or
`target < getValue (i+1)`, and `found` true exactly when
`getValue i = target`. -/
theorem bisectUnique_spec (target : Int) (getValue : Nat → Int) (n : Nat)
    (hn : 1 ≤ n) (mono : ∀ i j, i < j → j < n → getValue i < getValue j) :
    (target < getValue 0 → bisectUnique target getValue n = (-1, false)) ∧
    (getValue (n - 1) < target →
      bisectUnique target getValue n = (((n - 1 : Nat) : Int), false)) ∧
    (getValue 0 ≤ target → target ≤ getValue (n - 1) →
      ∃ i : Nat, bisectUnique target getValue n = ((i : Int), decide (getValue i = target)) ∧
        i < n ∧ getValue i ≤ target ∧ (i = n - 1 ∨ target < getValue (i + 1))) := by
  refine ⟨?_, ?_, ?_⟩
  · intro hlt
    rw [bisectUnique_eq, if_pos hlt]
  · intro hgt
    have h0 : ¬ (getValue 0 > target) := by
      intro hgt0
      rcases Nat.lt_or_ge 1 n with h2 | h2
      · have := mono 0 (n - 1) (by omega) (by omega)
        omega
      · have hn1 : n - 1 = 0 := by omega
        rw [hn1] at hgt
        omega
    rw [bisectUnique_eq, if_neg h0, if_pos hgt]
  · intro h0 h1
    rw [bisectUnique_eq, if_neg (by omega), if_neg (by omega)]
    obtain ⟨a1, a2, a3, a4, a5⟩ :=
      bisectLoop_spec target getValue n 0 (n - 1) (by omega) (by omega) h0 (Or.inl rfl)
    exact ⟨(bisectLoop target getValue 0 (n - 1)).1, by rw [a5], by omega, a3, a4⟩

/-- Witness for C1 at a concrete strictly increasing sequence. -/
theorem bisectUnique_spec_witness :
    ∃ i : Nat, bisectUnique 1 (fun k => (k : Int)) 3 =
        ((i : Int), decide ((fun k => (k : Int)) i = 1)) ∧
      i < 3 ∧ (fun k => (k : Int)) i ≤ 1 ∧ (i = 3 - 1 ∨ (1 : Int) < (fun k => (k : Int)) (i + 1)) :=
  (bisectUnique_spec 1 (fun k => (k : Int)) 3 (by norm_num)
    (fun i j hij _ => by show (i : Int) < (j : Int); exact_mod_cast hij)).2.2
    (by norm_num) (by norm_num)

theorem bisectSteps_step_le (target : Int) (getValue : Nat → Int) (iLow iHigh : Nat)
    (h : iLow < iHigh) (hm : getValue ((iLow + iHigh + 1) / 2) ≤ target) :
    bisectSteps target getValue iLow iHigh =
      bisectSteps target getValue ((iLow + iHigh + 1) / 2) iHigh + 1 := by
  rw [bisectSteps]
  simp [h, hm]

theorem bisectSteps_step_gt (target : Int) (getValue : Nat → Int) (iLow iHigh : Nat)
    (h : iLow < iHigh) (hm : ¬ getValue ((iLow + iHigh + 1) / 2) ≤ target) :
    bisectSteps target getValue iLow iHigh =
      bisectSteps target getValue iLow ((iLow + iHigh + 1) / 2 - 1) + 1 := by
  rw [bisectSteps]
  simp [h, hm]

theorem bisectSteps_stop (target : Int) (getValue : Nat → Int) (iLow iHigh : Nat)
    (h : ¬ iLow < iHigh) : bisectSteps target getValue iLow iHigh = 0 := by
  rw [bisectSteps]
  simp [h]

theorem bisectSteps_le_log (target : Int) (getValue : Nat → Int) :
    ∀ d iLow iHigh, iHigh - iLow = d →
    bisectSteps target getValue iLow iHigh ≤ Nat.log 2 d + 1 := by
  intro d
  induction d using Nat.strong_induction_on with
  | _ d ih =>
    intro iLow iHigh hd
    by_cases h : iLow < iHigh
    · have hd1 : 1 ≤ d := by omega
      by_cases hm : getValue ((iLow + iHigh + 1) / 2) ≤ target
      · rw [bisectSteps_step_le target getValue iLow iHigh h hm]
        set iMid := (iLow + iHigh + 1) / 2 with hmid
        have hd2 : iHigh - iMid ≤ d / 2 := by omega
        have hd3 : iHigh - iMid < d := by omega
        have hrec := ih (iHigh - iMid) hd3 iMid iHigh rfl
        by_cases h0 : iHigh - iMid = 0
        · rw [h0] at hrec
          have : bisectSteps target getValue iMid iHigh = 0 :=
            bisectSteps_stop target getValue iMid iHigh (by omega)
          omega
        · have hlog1 : Nat.log 2 (iHigh - iMid) ≤ Nat.log 2 (d / 2) :=
            Nat.log_mono_right hd2
          have hlog2 : Nat.log 2 (d / 2) = Nat.log 2 d - 1 := Nat.log_div_base 2 d
          have hlog3 : 0 < Nat.log 2 d := Nat.log_pos (by norm_num) (by omega)
          omega
      · rw [bisectSteps_step_gt target getValue iLow iHigh h hm]
        set iMid := (iLow + iHigh + 1) / 2 with hmid
        have hd2 : iMid - 1 - iLow ≤ d / 2 := by omega
        have hd3 : iMid - 1 - iLow < d := by omega
        have hrec := ih (iMid - 1 - iLow) hd3 iLow (iMid - 1) rfl
        by_cases h0 : iMid - 1 - iLow = 0
        · rw [h0] at hrec
          have : bisectSteps target getValue iLow (iMid - 1) = 0 :=
            bisectSteps_stop target getValue iLow (iMid - 1) (by omega)
          omega
        · have hlog1 : Nat.log 2 (iMid - 1 - iLow) ≤ Nat.log 2 (d / 2) :=
            Nat.log_mono_right hd2
          have hlog2 : Nat.log 2 (d / 2) = Nat.log 2 d - 1 := Nat.log_div_base 2 d
          have hlog3 : 0 < Nat.log 2 d := Nat.log_pos (by norm_num) (by omega)
          omega
    · rw [bisectSteps_stop target getValue iLow iHigh h]
      omega

/-- C5: each iteration of the `bisectUnique` loop on a non-collapsed
interval recurses (thanks to the ceiling midpoint, also in the two-element
case) on a strictly smaller interval, and from the initial interval
`[0, n-1]` of a length-`n` search the loop performs at most
`log2 (n-1) + 1` iterations. -/
theorem bisectUnique_terminates (target : Int) (getValue : Nat → Int) (n : Nat)
    (_hn : 1 ≤ n) :
    (∀ iLow iHigh, iLow < iHigh →
      (getValue ((iLow + iHigh + 1) / 2) ≤ target →
        bisectSteps target getValue iLow iHigh =
          bisectSteps target getValue ((iLow + iHigh + 1) / 2) iHigh + 1 ∧
        iHigh - (iLow + iHigh + 1) / 2 < iHigh - iLow) ∧
      (¬ getValue ((iLow + iHigh + 1) / 2) ≤ target →
        bisectSteps target getValue iLow iHigh =
          bisectSteps target getValue iLow ((iLow + iHigh + 1) / 2 - 1) + 1 ∧
        (iLow + iHigh + 1) / 2 - 1 - iLow < iHigh - iLow)) ∧
    bisectSteps target getValue 0 (n - 1) ≤ Nat.log 2 (n - 1) + 1 := by
  constructor
  · intro iLow iHigh h
    constructor
    · intro hm
      exact ⟨bisectSteps_step_le target getValue iLow iHigh h hm, by omega⟩
    · intro hm
      exact ⟨bisectSteps_step_gt target getValue iLow iHigh h hm, by omega⟩
  · exact bisectSteps_le_log target getValue (n - 1) 0 (n - 1) rfl

/-- Witness for C5 at a concrete input. -/
theorem bisectUnique_terminates_witness :
    bisectSteps 1 (fun k => (k : Int)) 0 (4 - 1) ≤ Nat.log 2 (4 - 1) + 1 :=
  (bisectUnique_terminates 1 (fun k => (k : Int)) 4 (by norm_num)).2

/-! ## Theorems: empty-node cache -/

theorem iterHash_iterHash (hash : Int → Int → Int) (x : Int) (m n : Nat) :
    iterHash hash (iterHash hash x m) n = iterHash hash x (n + m) := by
  induction n with
  | zero => simp [iterHash]
  | succ n ih => simp [iterHash, ih, show n + 1 + m = n + m + 1 from by omega]

theorem emptyFrom_append (hash : Int → Int → Int) (c : List Int) (j : Nat) :
    emptyFrom hash (c ++ [hash (c.getLastD 0) (c.getLastD 0)]) j = emptyFrom hash c j := by
  unfold emptyFrom
  rcases Nat.lt_trichotomy j c.length with hj | hj | hj
  · rw [if_pos (by simp; omega), if_pos hj, List.getD_append _ _ _ _ hj]
  · subst hj
    rw [if_pos (by simp), if_neg (by omega)]
    have h1 : (c ++ [hash (c.getLastD 0) (c.getLastD 0)]).getD c.length 0 =
        hash (c.getLastD 0) (c.getLastD 0) := by
      rw [List.getD_eq_getElem?_getD, List.getElem?_append_right le_rfl]
      simp
    rw [h1, show c.length + 1 - c.length = 1 from by omega]
    rfl
  · rw [if_neg (by simp; omega), if_neg (by omega), List.getLastD_concat]
    have h1 : hash (c.getLastD 0) (c.getLastD 0) = iterHash hash (c.getLastD 0) 1 := rfl
    rw [h1, iterHash_iterHash]
    congr 1
    simp only [List.length_append, List.length_cons, List.length_nil]
    omega

theorem growEmptyNodesAux_emptyFrom (hash : Int → Int → Int) :
    ∀ n c j, emptyFrom hash (growEmptyNodesAux hash n c) j = emptyFrom hash c j := by
  intro n
  induction n with
  | zero => intro c j; rfl
  | succ n ih =>
    intro c j
    show emptyFrom hash
      (growEmptyNodesAux hash n (c ++ [hash (c.getLastD 0) (c.getLastD 0)])) j = _
    rw [ih, emptyFrom_append]

theorem growEmptyNodesAux_length (hash : Int → Int → Int) :
    ∀ n c, (growEmptyNodesAux hash n c).length = c.length + n := by
  intro n
  induction n with
  | zero => intro c; rfl
  | succ n ih =>
    intro c
    show (growEmptyNodesAux hash n (c ++ [hash (c.getLastD 0) (c.getLastD 0)])).length =
      c.length + (n + 1)
    rw [ih]
    simp only [List.length_append, List.length_cons, List.length_nil]
    omega

theorem growEmptyNodes_emptyFrom (hash : Int → Int → Int) :
    ∀ c level j, emptyFrom hash (growEmptyNodes hash c level) j = emptyFrom hash c j :=
  fun c level j => growEmptyNodesAux_emptyFrom hash (level + 1 - c.length) c j

theorem growEmptyNodes_length (hash : Int → Int → Int) :
    ∀ c level, level < (growEmptyNodes hash c level).length := by
  intro c level
  unfold growEmptyNodes
  rw [growEmptyNodesAux_length]
  omega

theorem empty_fst (hash : Int → Int → Int) (c : List Int) (level : Nat) :
    (empty hash c level).1 = emptyFrom hash c level := by
  have h1 := growEmptyNodes_emptyFrom hash c level level
  have h2 := growEmptyNodes_length hash c level
  unfold empty
  rw [← h1]
  unfold emptyFrom
  rw [if_pos h2]

theorem empty_snd (hash : Int → Int → Int) (c : List Int) (level j : Nat) :
    emptyFrom hash (empty hash c level).2 j = emptyFrom hash c j :=
  growEmptyNodes_emptyFrom hash c level j

theorem emptyFrom_emptyNodes0 (hash : Int → Int → Int) (l : Nat) :
    emptyFrom hash emptyNodes0 l = iterHash hash 0 l := by
  unfold emptyFrom emptyNodes0
  cases l with
  | zero => rfl
  | succ l =>
    rw [if_neg (by simp)]
    simp [List.getLastD]

/-- C7: `empty` is deterministic — from any state of the shared cache that a
sequence of `empty` calls can produce, it returns the same value as from the
initial cache `[0]`, and leaves the cache in a state with the same values —
and that value satisfies `empty 0 = 0` and
`empty level = hash (empty (level-1)) (empty (level-1))` for `level ≥ 1`. -/
theorem empty_deterministic_recurrence (hash : Int → Int → Int) (c : List Int)
    (hc : ∀ j, emptyFrom hash c j = emptyFrom hash emptyNodes0 j) (level : Nat) :
    (empty hash c level).1 = (empty hash emptyNodes0 level).1 ∧
    (∀ j, emptyFrom hash (empty hash c level).2 j = emptyFrom hash emptyNodes0 j) ∧
    (empty hash c 0).1 = 0 ∧
    (1 ≤ level →
      (empty hash c level).1 =
        hash (empty hash c (level - 1)).1 (empty hash c (level - 1)).1) := by
  refine ⟨?_, ?_, ?_, ?_⟩
  · rw [empty_fst, empty_fst, hc]
  · intro j
    rw [empty_snd, hc]
  · rw [empty_fst, hc, emptyFrom_emptyNodes0]
    rfl
  · intro hl
    rw [empty_fst, empty_fst, hc, hc, emptyFrom_emptyNodes0, emptyFrom_emptyNodes0]
    obtain ⟨l, rfl⟩ : ∃ l, level = l + 1 := ⟨level - 1, by omega⟩
    simp [iterHash]

/-- Witness for C7 with a concrete hash function at level 2. -/
theorem empty_deterministic_recurrence_witness :
    (empty (fun a b => a + b + 1) emptyNodes0 2).1 =
      (empty (fun a b => a + b + 1) emptyNodes0 2).1 ∧
    (∀ j, emptyFrom (fun a b => a + b + 1) (empty (fun a b => a + b + 1) emptyNodes0 2).2 j =
      emptyFrom (fun a b => a + b + 1) emptyNodes0 j) ∧
    (empty (fun a b => a + b + 1) emptyNodes0 0).1 = 0 ∧
    (1 ≤ 2 → (empty (fun a b => a + b + 1) emptyNodes0 2).1 =
      (empty (fun a b => a + b + 1) emptyNodes0 1).1 +
        (empty (fun a b => a + b + 1) emptyNodes0 1).1 + 1) :=
  empty_deterministic_recurrence (fun a b => a + b + 1) emptyNodes0 (fun _ => rfl) 2

/-! ## Theorems: node cache -/

theorem getNode_entry_some (hash : Int → Int → Int) (nodes : Nodes) (c : List Int)
    (level index : Nat) (b : Bool) (v : Int) (hv : entryAt nodes level index = some v) :
    getNode hash nodes c level index b = .ok (v, c) := by
  unfold getNode
  rw [hv]

theorem getNode_entry_none_false (hash : Int → Int → Int) (nodes : Nodes) (c : List Int)
    (level index : Nat) (h : entryAt nodes level index = none) :
    getNode hash nodes c level index false =
      .ok (emptyFrom hash c level, (empty hash c level).2) := by
  unfold getNode
  rw [h]
  simp only [Bool.false_eq_true, if_false]
  rw [← empty_fst]

theorem getNode_ok_value (hash : Int → Int → Int) (nodes : Nodes) (c : List Int)
    (level index : Nat) (b : Bool)
    (hb : b = true → entryAt nodes level index ≠ none) :
    ∃ c2, getNode hash nodes c level index b = .ok (nodeValue hash nodes c level index, c2) ∧
      (∀ j, emptyFrom hash c2 j = emptyFrom hash c j) := by
  cases hv : entryAt nodes level index with
  | some v =>
    refine ⟨c, ?_, fun _ => rfl⟩
    rw [getNode_entry_some hash nodes c level index b v hv]
    unfold nodeValue
    rw [hv]
  | none =>
    cases b with
    | true => exact absurd hv (hb rfl)
    | false =>
      refine ⟨(empty hash c level).2, ?_, fun j => empty_snd hash c level j⟩
      rw [getNode_entry_none_false hash nodes c level index hv]
      unfold nodeValue
      rw [hv]

theorem nodeValue_congr (hash : Int → Int → Int) (nodes nodes2 : Nodes) (c c2 : List Int)
    (level index : Nat)
    (he : entryAt nodes2 level index = entryAt nodes level index)
    (hcc : ∀ j, emptyFrom hash c2 j = emptyFrom hash c j) :
    nodeValue hash nodes2 c2 level index = nodeValue hash nodes c level index := by
  unfold nodeValue
  rw [he]
  cases entryAt nodes level index with
  | some v => rfl
  | none => exact hcc level

/-- C6: `getNode(level, index, nonEmpty)` returns the cached hash when the
entry is present; when absent it fails with the invariant-violation error if
`nonEmpty` is true, and returns the canonical empty-subtree hash for `level`
if `nonEmpty` is false. -/
theorem getNode_spec (hash : Int → Int → Int) (nodes : Nodes) (c : List Int)
    (hc : ∀ j, emptyFrom hash c j = emptyFrom hash emptyNodes0 j)
    (level index : Nat) (nonEmpty : Bool) :
    (∀ v, entryAt nodes level index = some v →
      getNode hash nodes c level index nonEmpty = .ok (v, c)) ∧
    (entryAt nodes level index = none → nonEmpty = true →
      getNode hash nodes c level index nonEmpty =
        .error ("node at level=" ++ toString level ++ ", index=" ++ toString index ++
          " was expected to be known, but is not.")) ∧
    (entryAt nodes level index = none → nonEmpty = false →
      getNode hash nodes c level index nonEmpty =
        .ok (emptyFrom hash emptyNodes0 level, (empty hash c level).2)) := by
  refine ⟨?_, ?_, ?_⟩
  · intro v hv
    exact getNode_entry_some hash nodes c level index nonEmpty v hv
  · intro h0 hne
    subst hne
    unfold getNode
    rw [h0]
    rfl
  · intro h0 hne
    subst hne
    rw [getNode_entry_none_false hash nodes c level index h0, hc]

/-- Witness for C6: a one-node cache, reading a present entry, a missing
entry with `nonEmpty` asserted, and a missing entry without it. -/
theorem getNode_spec_witness :
    (∀ v, entryAt [[some 5]] 0 1 = some v →
      getNode (fun a b => a + b + 1) [[some 5]] emptyNodes0 0 1 false = .ok (v, emptyNodes0)) ∧
    (entryAt [[some 5]] 0 1 = none → false = true →
      getNode (fun a b => a + b + 1) [[some 5]] emptyNodes0 0 1 false =
        .error ("node at level=" ++ toString (0 : Nat) ++ ", index=" ++ toString (1 : Nat) ++
          " was expected to be known, but is not.")) ∧
    (entryAt [[some 5]] 0 1 = none → false = false →
      getNode (fun a b => a + b + 1) [[some 5]] emptyNodes0 0 1 false =
        .ok (emptyFrom (fun a b => a + b + 1) emptyNodes0 0,
             (empty (fun a b => a + b + 1) emptyNodes0 0).2)) :=
  getNode_spec (fun a b => a + b + 1) [[some 5]] emptyNodes0 (fun _ => rfl) 0 1 false

/-- C9: a newly constructed `IndexedMerkleMap` of height `h ≥ 1` has root
equal to the canonical empty-subtree hash for level `h - 1` and length 0. -/
theorem create_spec (hash : Int → Int → Int) (c : List Int) (height : Nat)
    (_hh : 1 ≤ height) (hc : ∀ j, emptyFrom hash c j = emptyFrom hash emptyNodes0 j) :
    (IndexedMerkleMap.create hash c height).1.root =
      emptyFrom hash emptyNodes0 (height - 1) ∧
    (IndexedMerkleMap.create hash c height).1.length = 0 := by
  constructor
  · show (empty hash c (height - 1)).1 = emptyFrom hash emptyNodes0 (height - 1)
    rw [empty_fst, hc]
  · rfl

/-- Witness for C9 at height 2 with a concrete hash function. -/
theorem create_spec_witness :
    (IndexedMerkleMap.create (fun a b => a + b + 1) emptyNodes0 2).1.root =
      emptyFrom (fun a b => a + b + 1) emptyNodes0 1 ∧
    (IndexedMerkleMap.create (fun a b => a + b + 1) emptyNodes0 2).1.length = 0 :=
  create_spec (fun a b => a + b + 1) emptyNodes0 2 (by norm_num) (fun _ => rfl)

/-! ## Theorems: setLeafNode -/

theorem listSetPad_getD_self (row : List (Option Int)) (i : Nat) (v : Int) :
    (listSetPad row i v).getD i none = some v := by
  induction i generalizing row with
  | zero => cases row <;> rfl
  | succ n ih =>
    cases row with
    | nil =>
      show (none :: listSetPad [] n v).getD (n + 1) none = some v
      rw [List.getD_cons_succ]
      exact ih []
    | cons x xs =>
      show (x :: listSetPad xs n v).getD (n + 1) none = some v
      rw [List.getD_cons_succ]
      exact ih xs

theorem nodesSet_length (nodes : Nodes) (l i : Nat) (v : Int) :
    (nodesSet nodes l i v).length = nodes.length := by
  induction nodes generalizing l with
  | nil => rfl
  | cons row rest ih =>
    cases l with
    | zero => rfl
    | succ n =>
      show (row :: nodesSet rest n i v).length = (row :: rest).length
      simp [ih]

theorem nodesSet_getD_ne (nodes : Nodes) (l i : Nat) (v : Int) (l2 : Nat) (h : l2 ≠ l) :
    (nodesSet nodes l i v).getD l2 [] = nodes.getD l2 [] := by
  induction nodes generalizing l l2 with
  | nil => rfl
  | cons row rest ih =>
    cases l with
    | zero =>
      obtain ⟨m, rfl⟩ : ∃ m, l2 = m + 1 := ⟨l2 - 1, by omega⟩
      show (listSetPad row i v :: rest).getD (m + 1) [] = (row :: rest).getD (m + 1) []
      rw [List.getD_cons_succ, List.getD_cons_succ]
    | succ n =>
      cases l2 with
      | zero => rfl
      | succ m =>
        show (row :: nodesSet rest n i v).getD (m + 1) [] = (row :: rest).getD (m + 1) []
        rw [List.getD_cons_succ, List.getD_cons_succ]
        exact ih n m (by omega)

theorem nodesSet_getD_self (nodes : Nodes) (l i : Nat) (v : Int) (h : l < nodes.length) :
    (nodesSet nodes l i v).getD l [] = listSetPad (nodes.getD l []) i v := by
  induction nodes generalizing l with
  | nil => simp at h
  | cons row rest ih =>
    cases l with
    | zero => rfl
    | succ n =>
      show (row :: nodesSet rest n i v).getD (n + 1) [] =
        listSetPad ((row :: rest).getD (n + 1) []) i v
      rw [List.getD_cons_succ, List.getD_cons_succ]
      exact ih n (by simp only [List.length_cons] at h; omega)

theorem entryAt_nodesSet_self (nodes : Nodes) (l i : Nat) (v : Int) (h : l < nodes.length) :
    entryAt (nodesSet nodes l i v) l i = some v := by
  unfold entryAt
  rw [nodesSet_getD_self nodes l i v h, listSetPad_getD_self]

theorem entryAt_congr_row (nodes nodes2 : Nodes) (l i : Nat)
    (h : nodes2.getD l [] = nodes.getD l []) :
    entryAt nodes2 l i = entryAt nodes l i := by
  unfold entryAt
  rw [h]

theorem setLeafLoop_stop (hash : Int → Int → Int) (height fuel level : Nat) (nodes : Nodes)
    (c : List Int) (index : Nat) (isLeft : Bool) (h : ¬ level < height) :
    setLeafLoop hash height fuel level nodes c index isLeft = .ok (nodes, c) := by
  cases fuel with
  | zero => rfl
  | succ f => simp [setLeafLoop, h]

theorem setLeafLoop_step (hash : Int → Int → Int) (height fuel level : Nat) (nodes : Nodes)
    (c : List Int) (index : Nat) (isLeft : Bool) (h : level < height)
    (lv : Int) (c1 : List Int)
    (hl : getNode hash nodes c (level - 1) (index / 2 * 2) isLeft = .ok (lv, c1))
    (rv : Int) (c2 : List Int)
    (hr : getNode hash nodes c1 (level - 1) (index / 2 * 2 + 1) (!isLeft) = .ok (rv, c2)) :
    setLeafLoop hash height (fuel + 1) level nodes c index isLeft =
      setLeafLoop hash height fuel (level + 1)
        (nodesSet nodes level (index / 2) (hash lv rv)) c2
        (index / 2) (decide (index / 2 % 2 = 0)) := by
  simp [setLeafLoop, h, hl, hr]

theorem div_div_pow (idx k : Nat) : idx / 2 / 2 ^ k = idx / 2 ^ (k + 1) := by
  rw [Nat.div_div_eq_div_mul, ← pow_succ']

theorem setLeafLoop_spec (hash : Int → Int → Int) (height : Nat) :
    ∀ fuel level (nodes : Nodes) (c : List Int) (idx : Nat),
    height - level = fuel → 1 ≤ level → nodes.length = height →
    entryAt nodes (level - 1) idx ≠ none →
    ∃ nodes2 c2,
      setLeafLoop hash height fuel level nodes c idx (decide (idx % 2 = 0)) = .ok (nodes2, c2) ∧
      nodes2.length = height ∧
      (∀ l, l < level → nodes2.getD l [] = nodes.getD l []) ∧
      (∀ j, emptyFrom hash c2 j = emptyFrom hash c j) ∧
      (∀ l, level ≤ l → l < height →
        ∃ lv rv c3 c4,
          getNode hash nodes2 c2 (l - 1) (idx / 2 ^ (l + 1 - level) * 2)
            (decide (idx / 2 ^ (l - level) % 2 = 0)) = .ok (lv, c3) ∧
          getNode hash nodes2 c3 (l - 1) (idx / 2 ^ (l + 1 - level) * 2 + 1)
            (!decide (idx / 2 ^ (l - level) % 2 = 0)) = .ok (rv, c4) ∧
          entryAt nodes2 l (idx / 2 ^ (l + 1 - level)) = some (hash lv rv)) := by
  intro fuel
  induction fuel with
  | zero =>
    intro level nodes c idx hfuel hlev hlen hpres
    have hnl : ¬ level < height := by omega
    exact ⟨nodes, c, setLeafLoop_stop hash height 0 level nodes c idx _ hnl, hlen,
      fun _ _ => rfl, fun _ => rfl, fun l hl1 hl2 => absurd hl2 (by omega)⟩
  | succ f ih =>
    intro level nodes c idx hfuel hlev hlen hpres
    have hlt : level < height := by omega
    have hbL : decide (idx % 2 = 0) = true →
        entryAt nodes (level - 1) (idx / 2 * 2) ≠ none := by
      intro hflag
      have hpar : idx % 2 = 0 := of_decide_eq_true hflag
      have hid : idx / 2 * 2 = idx := by omega
      rw [hid]
      exact hpres
    obtain ⟨c1, hl, hc1⟩ := getNode_ok_value hash nodes c (level - 1) (idx / 2 * 2)
      (decide (idx % 2 = 0)) hbL
    have hbR : (!decide (idx % 2 = 0)) = true →
        entryAt nodes (level - 1) (idx / 2 * 2 + 1) ≠ none := by
      intro hflag
      have hpar : ¬ (idx % 2 = 0) := by
        intro hp
        rw [decide_eq_true hp] at hflag
        simp at hflag
      have hid : idx / 2 * 2 + 1 = idx := by omega
      rw [hid]
      exact hpres
    obtain ⟨c2, hr, hc2⟩ := getNode_ok_value hash nodes c1 (level - 1) (idx / 2 * 2 + 1)
      (!decide (idx % 2 = 0)) hbR
    set lv := nodeValue hash nodes c (level - 1) (idx / 2 * 2) with hlv
    set rv := nodeValue hash nodes c1 (level - 1) (idx / 2 * 2 + 1) with hrv
    set nodes1 := nodesSet nodes level (idx / 2) (hash lv rv) with hnodes1
    have hlen1 : nodes1.length = height := by rw [hnodes1, nodesSet_length, hlen]
    have hpres1 : entryAt nodes1 (level + 1 - 1) (idx / 2) ≠ none := by
      rw [show level + 1 - 1 = level from by omega, hnodes1,
        entryAt_nodesSet_self nodes level (idx / 2) _ (by omega)]
      simp
    obtain ⟨nodes2, c2f, hrun, hlen2, hrows, hcache, hP3⟩ :=
      ih (level + 1) nodes1 c2 (idx / 2) (by omega) (by omega) hlen1 hpres1
    have hccf : ∀ j, emptyFrom hash c2f j = emptyFrom hash c j := by
      intro j
      rw [hcache j, hc2 j, hc1 j]
    refine ⟨nodes2, c2f, ?_, hlen2, ?_, hccf, ?_⟩
    · rw [setLeafLoop_step hash height f level nodes c idx _ hlt lv c1 hl rv c2 hr]
      exact hrun
    · intro l hl2
      rw [hrows l (by omega), hnodes1, nodesSet_getD_ne nodes level (idx / 2) _ l (by omega)]
    · intro l hll hlh
      have hrow_lm1 : nodes2.getD (level - 1) [] = nodes.getD (level - 1) [] := by
        rw [hrows (level - 1) (by omega), hnodes1,
          nodesSet_getD_ne nodes level (idx / 2) _ (level - 1) (by omega)]
      rcases Nat.eq_or_lt_of_le hll with heq | hlt2
      · subst heq
        rw [show level + 1 - level = 1 from by omega, show level - level = 0 from by omega,
          pow_one, pow_zero, Nat.div_one]
        have hent2 : ∀ k, entryAt nodes2 (level - 1) k = entryAt nodes (level - 1) k :=
          fun k => entryAt_congr_row nodes nodes2 (level - 1) k hrow_lm1
        have hbL2 : decide (idx % 2 = 0) = true →
            entryAt nodes2 (level - 1) (idx / 2 * 2) ≠ none := by
          intro hflag
          rw [hent2]
          exact hbL hflag
        obtain ⟨c3, hl2, hc3⟩ := getNode_ok_value hash nodes2 c2f (level - 1) (idx / 2 * 2)
          (decide (idx % 2 = 0)) hbL2
        have hbR2 : (!decide (idx % 2 = 0)) = true →
            entryAt nodes2 (level - 1) (idx / 2 * 2 + 1) ≠ none := by
          intro hflag
          rw [hent2]
          exact hbR hflag
        obtain ⟨c4, hr2, hc4⟩ := getNode_ok_value hash nodes2 c3 (level - 1) (idx / 2 * 2 + 1)
          (!decide (idx % 2 = 0)) hbR2
        have hentry : entryAt nodes2 level (idx / 2) = some (hash lv rv) := by
          rw [entryAt_congr_row nodes1 nodes2 level (idx / 2) (hrows level (by omega)),
            hnodes1, entryAt_nodesSet_self nodes level (idx / 2) _ (by omega)]
        have hLeq : nodeValue hash nodes2 c2f (level - 1) (idx / 2 * 2) = lv := by
          rw [hlv]
          exact nodeValue_congr hash nodes nodes2 c c2f (level - 1) (idx / 2 * 2)
            (hent2 _) hccf
        have hReq : nodeValue hash nodes2 c3 (level - 1) (idx / 2 * 2 + 1) = rv := by
          rw [hrv]
          refine nodeValue_congr hash nodes nodes2 c1 c3 (level - 1) (idx / 2 * 2 + 1)
            (hent2 _) ?_
          intro j
          rw [hc3 j, hccf j, ← hc1 j]
        refine ⟨_, _, c3, c4, hl2, hr2, ?_⟩
        rw [hentry, hLeq, hReq]
      · obtain ⟨lvl, rvl, c3, c4, hg1, hg2, hg3⟩ := hP3 l (by omega) hlh
        have e1 : l + 1 - (level + 1) = l - level := by omega
        have e3 : idx / 2 / 2 ^ (l - (level + 1)) = idx / 2 ^ (l - level) := by
          rw [div_div_pow, show l - (level + 1) + 1 = l - level from by omega]
        have e2 : idx / 2 / 2 ^ (l - level) = idx / 2 ^ (l + 1 - level) := by
          rw [div_div_pow, show l - level + 1 = l + 1 - level from by omega]
        rw [e1] at hg1 hg2 hg3
        rw [e3] at hg1 hg2
        rw [e2] at hg1 hg2 hg3
        exact ⟨lvl, rvl, c3, c4, hg1, hg2, hg3⟩

/-- C2 (amended): `setLeafNode(i, h)` on a map with one node row per level
writes `h` into the level-0 cache entry at `i` (so `getNode(0, i, true)`
returns `h`) and overwrites every ancestor cache entry on the path with
`hash(left, right)` of its two children fetched via `getNode`, `nonEmpty`
set exactly on the side of the path just written; the final step writes the
top-level cache entry, while the `root` field (as well as `length` and
`height`) is left untouched. -/
theorem setLeafNode_spec (hash : Int → Int → Int) (m : IndexedMerkleMap) (c : List Int)
    (i : Nat) (h : Int) (hlen : m.nodes.length = m.height) (hh : 1 ≤ m.height) :
    ∃ m2 c2, setLeafNode hash m c i h = .ok (m2, c2) ∧
      entryAt m2.nodes 0 i = some h ∧
      getNode hash m2.nodes c2 0 i true = .ok (h, c2) ∧
      (∀ l, 1 ≤ l → l < m.height →
        ∃ lv rv c3 c4,
          getNode hash m2.nodes c2 (l - 1) (i / 2 ^ l * 2)
            (decide (i / 2 ^ (l - 1) % 2 = 0)) = .ok (lv, c3) ∧
          getNode hash m2.nodes c3 (l - 1) (i / 2 ^ l * 2 + 1)
            (!decide (i / 2 ^ (l - 1) % 2 = 0)) = .ok (rv, c4) ∧
          entryAt m2.nodes l (i / 2 ^ l) = some (hash lv rv)) ∧
      m2.root = m.root ∧ m2.length = m.length ∧ m2.height = m.height := by
  set nodes0 := nodesSet m.nodes 0 i h with hnodes0
  have hlen0 : nodes0.length = m.height := by rw [hnodes0, nodesSet_length, hlen]
  have hpres0 : entryAt nodes0 (1 - 1) i ≠ none := by
    rw [show (1 : Nat) - 1 = 0 from rfl, hnodes0,
      entryAt_nodesSet_self m.nodes 0 i h (by omega)]
    simp
  obtain ⟨nodes2, c2, hrun, hlen2, hrows, hcache, hP3⟩ :=
    setLeafLoop_spec hash m.height (m.height - 1) 1 nodes0 c i rfl le_rfl hlen0 hpres0
  have hent0 : entryAt nodes2 0 i = some h := by
    rw [entryAt_congr_row nodes0 nodes2 0 i (hrows 0 (by omega)), hnodes0,
      entryAt_nodesSet_self m.nodes 0 i h (by omega)]
  have hstep : setLeafNode hash m c i h = .ok ({ m with nodes := nodes2 }, c2) := by
    unfold setLeafNode
    rw [← hnodes0]
    show (match setLeafLoop hash m.height (m.height - 1) 1 nodes0 c i (decide (i % 2 = 0)) with
      | .error e => (.error e : Except String (IndexedMerkleMap × List Int))
      | .ok (nodes, c) => .ok ({ m with nodes := nodes }, c)) = _
    rw [hrun]
  refine ⟨{ m with nodes := nodes2 }, c2, hstep, hent0,
    getNode_entry_some hash nodes2 c2 0 i true h hent0, ?_, rfl, rfl, rfl⟩
  intro l hl1 hl2
  obtain ⟨lv, rv, c3, c4, hg1, hg2, hg3⟩ := hP3 l hl1 hl2
  rw [show l + 1 - 1 = l from by omega] at hg1 hg2 hg3
  exact ⟨lv, rv, c3, c4, hg1, hg2, hg3⟩

/-- Witness for the amended C2: a height-2 map, leaf 5 written at index 0,
with a concrete hash function. -/
theorem setLeafNode_spec_witness :
    ∃ m2 c2, setLeafNode (fun a b => a + b + 1)
        (IndexedMerkleMap.create (fun a b => a + b + 1) emptyNodes0 2).1 emptyNodes0 0 5 =
        .ok (m2, c2) ∧
      entryAt m2.nodes 0 0 = some 5 ∧
      getNode (fun a b => a + b + 1) m2.nodes c2 0 0 true = .ok (5, c2) ∧
      (∀ l, 1 ≤ l →
        l < (IndexedMerkleMap.create (fun a b => a + b + 1) emptyNodes0 2).1.height →
        ∃ lv rv c3 c4,
          getNode (fun a b => a + b + 1) m2.nodes c2 (l - 1) (0 / 2 ^ l * 2)
            (decide (0 / 2 ^ (l - 1) % 2 = 0)) = .ok (lv, c3) ∧
          getNode (fun a b => a + b + 1) m2.nodes c3 (l - 1) (0 / 2 ^ l * 2 + 1)
            (!decide (0 / 2 ^ (l - 1) % 2 = 0)) = .ok (rv, c4) ∧
          entryAt m2.nodes l (0 / 2 ^ l) = some (lv + rv + 1)) ∧
      m2.root = (IndexedMerkleMap.create (fun a b => a + b + 1) emptyNodes0 2).1.root ∧
      m2.length = (IndexedMerkleMap.create (fun a b => a + b + 1) emptyNodes0 2).1.length ∧
      m2.height = (IndexedMerkleMap.create (fun a b => a + b + 1) emptyNodes0 2).1.height :=
  setLeafNode_spec (fun a b => a + b + 1)
    (IndexedMerkleMap.create (fun a b => a + b + 1) emptyNodes0 2).1 emptyNodes0 0 5
    (by decide) (by decide)

/-- Counterexample to C2 as stated: on a fresh height-2 map, `setLeafNode`
succeeds, the final loop step stores the recomputed top hash 6 in the
top-level cache entry, but the map's `root` field still holds the
empty-tree root 1 — `setLeafNode` does not update the root. -/
theorem setLeafNode_root_not_updated :
    (setLeafNode (fun a b => a + b + 1)
        (IndexedMerkleMap.create (fun a b => a + b + 1) emptyNodes0 2).1
        (IndexedMerkleMap.create (fun a b => a + b + 1) emptyNodes0 2).2 0 5).toOption.map
      (fun p => (p.1.root, entryAt p.1.nodes 1 0)) = some (1, some 6) ∧ (1 : Int) ≠ 6 := by
  constructor
  · rfl
  · decide

end O1js
